import Mathlib

/-! # UDP market-feed simulator: embedding and verified properties

A shallow embedding of `market_feed_simulator.h`, `market_feed_simulator.cpp`
and the decoding branch of `market_feed_receiver.cpp`.

* `double` is modelled by `Double`: binary64 values as exact rationals with
  infinities and NaN, every arithmetic result rounded to nearest, ties to even.
  The sign of a zero is not tracked: the program never divides by a zero and
  never inspects the sign bit, so both zeros behave alike in every operation
  modelled here.
* `uint32_t` / `uint64_t` are `Nat` with explicit reduction modulo `2^32` / `2^64`
  where the program increments or adds; `int` is `Int`, signed overflow is
  undefined behaviour and modelled by `none`.
* The pseudo-random draws and the clock reading consumed by one call of
  `generateMarketUpdate` are passed in explicitly (`Draws`).
* A C++ exception is an `Except` value returned next to the state the object is
  left in.
-/

namespace MarketFeed

/-! ## binary64 arithmetic -/

/-- Round a rational to the nearest integer, ties to the even integer. -/
def roundNearestEven (x : ℚ) : ℤ :=
  let f := ⌊x⌋
  if x - f < 1 / 2 then f
  else if 1 / 2 < x - f then f + 1
  else if f % 2 = 0 then f else f + 1

/-- The power `2 ^ e` for an integer exponent, computed on naturals. -/
def pow2 (e : ℤ) : ℚ :=
  if 0 ≤ e then ((2 ^ e.toNat : ℕ) : ℚ) else 1 / ((2 ^ (-e).toNat : ℕ) : ℚ)

/-- Number of binary digits of `n`, by halving at most `fuel` times. -/
def bitLenAux : ℕ → ℕ → ℕ
  | 0, _ => 0
  | fuel + 1, n => if n = 0 then 0 else bitLenAux fuel (n / 2) + 1

/-- Number of binary digits of `n` (0 for 0). -/
def bitLen (n : ℕ) : ℕ := bitLenAux n n

/-- The integer `e` with `2 ^ e ≤ |q| < 2 ^ (e + 1)`, for `q ≠ 0`. -/
def ilog2 (q : ℚ) : ℤ :=
  let e : ℤ := (bitLen q.num.natAbs : ℤ) - (bitLen q.den : ℤ)
  if |q| < pow2 e then e - 1 else e

/-- Binary exponent of the binade holding `q`, clamped at the subnormal range. -/
def binade (q : ℚ) : ℤ := max (ilog2 q) (-1022)

/-- Spacing of binary64 values in the binade of `q` (53 significant bits). -/
def ulp (q : ℚ) : ℚ := pow2 (binade q - 52)

/-- A binary64 value: NaN, an infinity with its sign, or a finite value. -/
inductive Double where
  | nan : Double
  | inf (neg : Bool) : Double
  | fin (q : ℚ) : Double
  deriving DecidableEq

namespace Double

/-- Rounding of an exact result to binary64: nearest, ties to even, overflow to infinity. -/
def ofRat (q : ℚ) : Double :=
  let r : ℚ := roundNearestEven (q / ulp q) * ulp q
  if pow2 1024 ≤ |r| then inf (decide (r < 0)) else fin r

/-- Operator `+` on `double`. -/
def add : Double → Double → Double
  | fin a, fin b => ofRat (a + b)
  | fin _, inf s => inf s
  | inf s, fin _ => inf s
  | inf s, inf t => if s = t then inf s else nan
  | _, _ => nan

/-- Operator `*` on `double`. -/
def mul : Double → Double → Double
  | fin a, fin b => ofRat (a * b)
  | fin a, inf s => if a = 0 then nan else inf (xor s (decide (a < 0)))
  | inf s, fin b => if b = 0 then nan else inf (xor s (decide (b < 0)))
  | inf s, inf t => inf (xor s t)
  | _, _ => nan

/-- Operator `/` on `double`; a zero divisor is taken as `+0`. -/
def div : Double → Double → Double
  | fin a, fin b =>
      if b = 0 then (if a = 0 then nan else inf (decide (a < 0))) else ofRat (a / b)
  | fin _, inf _ => fin 0
  | inf s, fin b => inf (xor s (decide (b < 0)))
  | inf _, inf _ => nan
  | _, _ => nan

/-- The function `std::round`: nearest integer, halfway cases away from zero. -/
def round : Double → Double
  | fin a => if 0 ≤ a then fin (⌊a + 1 / 2⌋ : ℤ) else fin (-(⌊-a + 1 / 2⌋ : ℤ))
  | x => x

/-- Operator `<=` on `double`; false when an operand is NaN. -/
def le : Double → Double → Bool
  | fin a, fin b => decide (a ≤ b)
  | fin _, inf s => !s
  | inf s, fin _ => s
  | inf s, inf t => s || !t
  | _, _ => false

/-- Operator `<` on `double`; false when an operand is NaN. -/
def lt : Double → Double → Bool
  | fin a, fin b => decide (a < b)
  | fin _, inf s => !s
  | inf s, fin _ => s
  | inf s, inf t => s && !t
  | _, _ => false

end Double

/-! ## Machine integers -/

/-- Conversion of an unsigned value to `int` (32 bits, two's complement, modular). -/
def toInt32 (x : ℕ) : ℤ := ((x : ℤ) + 2147483648) % 4294967296 - 2147483648

/-- Whether an exact integer result fits `int`. -/
def inIntRange (x : ℤ) : Bool := decide (-2147483648 ≤ x) && decide (x ≤ 2147483647)

/-- Multiplication on `int`: `none` on signed overflow. -/
def intMul (a b : ℤ) : Option ℤ := if inIntRange (a * b) then some (a * b) else none

/-- Division on `int`, truncating toward zero: `none` on a zero divisor or on overflow. -/
def intDiv (a b : ℤ) : Option ℤ :=
  if b = 0 then none
  else if inIntRange (Int.tdiv a b) then some (Int.tdiv a b) else none

/-! ## Data model (`market_feed_simulator.h`) -/

/-- The struct `Instrument`. -/
structure Instrument where
  id : ℕ
  symbol : String
  base_price : Double
  current_price : Double
  volatility : Double
  volume : ℕ
  sequence_number : ℕ
  deriving DecidableEq

/-- The packed struct `RawMarketMessage`; `D` is the representation of the `double` field:
`Double` in the generator, the 64-bit object representation on the wire. -/
structure RawMarketMessage (D : Type) where
  timestamp : ℕ
  instrument_id : ℕ
  price : D
  volume : ℕ
  side : ℕ
  sequence_number : ℕ
  deriving DecidableEq

/-- What a member function raised: a thrown `std::runtime_error`, or `std::terminate`. -/
inductive Raised where
  | runtime_error (what : String) : Raised
  | terminate : Raised
  deriving DecidableEq

/-- The data members of `MarketFeedSimulator` that the engine logic reads or writes.
`simulator_thread` records whether the thread object is joinable; `instrument_dist` holds
the two `int` parameters of the `uniform_int_distribution`. -/
structure MarketFeedSimulator where
  instruments : List Instrument
  multicast_ip : String
  port : ℤ
  running : Bool
  simulator_thread : Bool
  instrument_dist : ℤ × ℤ
  messages_per_second : ℤ
  burst_multiplier : ℤ
  market_open : Bool
  deriving DecidableEq

/-- The member `tick_size = 0.01`, never assigned after initialisation. -/
def tick_size : Double := Double.ofRat (1 / 100)

/-- The constant `'B'`. -/
def sideBuy : ℕ := 66

/-- The constant `'S'`. -/
def sideSell : ℕ := 83

/-- The values one call of `generateMarketUpdate` obtains from the generator and the clock:
`instrument_dist(gen)`, `price_change_dist(gen)`, `static_cast<uint64_t>(volume_dist(gen))`,
`side_dist(gen)` and `getCurrentMicroseconds()`. -/
structure Draws where
  idx : ℤ
  random_factor : Double
  volume : ℕ
  side : ℤ
  now_us : ℕ
  deriving DecidableEq

namespace MarketFeedSimulator

/-- The constructor, after a successful `setupSocket`. -/
def new (multicast_ip : String) (port : ℤ) : MarketFeedSimulator :=
  { instruments := [], multicast_ip := multicast_ip, port := port, running := false,
    simulator_thread := false, instrument_dist := (0, 0), messages_per_second := 1000,
    burst_multiplier := 5, market_open := true }

/-- The member function `addInstrument`. -/
def addInstrument (s : MarketFeedSimulator) (id : ℕ) (symbol : String)
    (base_price volatility : Double) : MarketFeedSimulator × Except Raised Unit :=
  let instrument : Instrument :=
    { id := id, symbol := symbol, base_price := base_price, current_price := base_price,
      volatility := volatility, volume := 0, sequence_number := 1 }
  let instruments := s.instruments ++ [instrument]
  if instruments.length > 1 then
    ({ s with instruments := instruments,
              instrument_dist := (0, toInt32 ((instruments.length - 1) % 18446744073709551616)) },
     .ok ())
  else
    ({ s with instruments := instruments }, .ok ())

/-- The member function `setMessageRate`. -/
def setMessageRate (s : MarketFeedSimulator) (msgs_per_sec : ℤ) : MarketFeedSimulator :=
  { s with messages_per_second := msgs_per_sec }

/-- The member function `setBurstMode`. -/
def setBurstMode (s : MarketFeedSimulator) (enabled : Bool) : MarketFeedSimulator :=
  { s with burst_multiplier := if enabled then 10 else 1 }

/-- The member function `setMarketOpen`. -/
def setMarketOpen (s : MarketFeedSimulator) (isOpen : Bool) : MarketFeedSimulator :=
  { s with market_open := isOpen }

/-- The member function `start`: the state it leaves and what it raised. Assigning to a
joinable `std::thread` calls `std::terminate`. -/
def start (s : MarketFeedSimulator) : MarketFeedSimulator × Except Raised Unit :=
  if s.instruments.isEmpty then
    (s, .error (.runtime_error "No instruments configured"))
  else if s.simulator_thread then
    ({ s with running := true }, .error .terminate)
  else
    ({ s with running := true, simulator_thread := true }, .ok ())

/-- The member function `stop`: clears the flag and joins the thread. -/
def stop (s : MarketFeedSimulator) : MarketFeedSimulator :=
  { s with running := false, simulator_thread := false }

/-- The local `effective_rate` of `simulateMarket`. -/
def effective_rate (s : MarketFeedSimulator) : Option ℤ :=
  intMul s.messages_per_second (if s.market_open then s.burst_multiplier else 1)

/-- The local `target_interval` of `simulateMarket`. -/
def target_interval (s : MarketFeedSimulator) : Option ℤ :=
  (effective_rate s).bind fun r => intDiv 1000000 r

/-- The member function `generatePriceChange`, on the factor drawn from `price_change_dist`. -/
def generatePriceChange (current_price volatility random_factor : Double) : Double :=
  (current_price.mul volatility).mul random_factor

/-- Lines 138-143 of `generateMarketUpdate`: the price after the delta and the reset. -/
def priceAfterReset (i : Instrument) (random_factor : Double) : Double :=
  let p := i.current_price.add (generatePriceChange i.current_price i.volatility random_factor)
  if p.le (.fin 0) then i.base_price.mul (Double.ofRat (1 / 2)) else p

/-- Line 145 of `generateMarketUpdate`: `std::round(p / tick_size) * tick_size`. -/
def quantize (p : Double) : Double := ((p.div tick_size).round).mul tick_size

/-- The member function `generateVolume`: the drawn real converted to `uint64_t`. -/
def generateVolume (d : Draws) : ℕ := d.volume % 18446744073709551616

/-- The member function `getCurrentMicroseconds`: the clock reading as `uint64_t`. -/
def getCurrentMicroseconds (d : Draws) : ℕ := d.now_us % 18446744073709551616

/-- Lines 138-156 of `generateMarketUpdate` on the selected instrument: the updated
instrument and the message built from it. -/
def updateInstrument (i : Instrument) (d : Draws) : Instrument × RawMarketMessage Double :=
  let price := quantize (priceAfterReset i d.random_factor)
  let volume := generateVolume d
  ({ i with current_price := price,
            volume := (i.volume + volume) % 18446744073709551616,
            sequence_number := (i.sequence_number + 1) % 4294967296 },
   { timestamp := getCurrentMicroseconds d,
     instrument_id := i.id,
     price := price,
     volume := volume,
     side := if d.side ≠ 0 then sideBuy else sideSell,
     sequence_number := i.sequence_number })

/-- The member function `generateMarketUpdate`: `none` is an out-of-bounds `instruments[idx]`;
otherwise the new state and the message handed to `sendMessage`, if any. -/
def generateMarketUpdate (s : MarketFeedSimulator) (d : Draws) :
    Option (MarketFeedSimulator × Option (RawMarketMessage Double)) :=
  if s.instruments.isEmpty then some (s, none)
  else if 0 ≤ d.idx then
    match s.instruments.get? d.idx.toNat with
    | some i =>
        let r := updateInstrument i d
        some ({ s with instruments := s.instruments.set d.idx.toNat r.1 }, some r.2)
    | none => none
  else none

end MarketFeedSimulator

/-! ## Runs of the engine -/

/-- The arguments of one `addInstrument` call. -/
structure InstrumentSpec where
  id : ℕ
  symbol : String
  base_price : Double
  volatility : Double
  deriving DecidableEq

/-- A sequence of `addInstrument` calls, in order. -/
def addInstruments (s : MarketFeedSimulator) : List InstrumentSpec → MarketFeedSimulator
  | [] => s
  | x :: xs => addInstruments (s.addInstrument x.id x.symbol x.base_price x.volatility).1 xs

/-- A call of one of the runtime setters. -/
inductive Control where
  | setMessageRate (msgs_per_sec : ℤ) : Control
  | setBurstMode (enabled : Bool) : Control
  | setMarketOpen (isOpen : Bool) : Control
  deriving DecidableEq

/-- The effect of one setter call. -/
def applyControl (s : MarketFeedSimulator) : Control → MarketFeedSimulator
  | .setMessageRate n => s.setMessageRate n
  | .setBurstMode b => s.setBurstMode b
  | .setMarketOpen b => s.setMarketOpen b

/-- A sequence of setter calls, in order. -/
def applyControls (s : MarketFeedSimulator) (cs : List Control) : MarketFeedSimulator :=
  cs.foldl applyControl s

/-- Successive calls of `generateMarketUpdate`, one per element of `ds`; every message handed
to `sendMessage` is recorded with the position of the instrument it was built from. -/
def runUpdates : MarketFeedSimulator → List Draws →
    Option (MarketFeedSimulator × List (ℕ × RawMarketMessage Double))
  | s, [] => some (s, [])
  | s, d :: ds =>
      match s.generateMarketUpdate d with
      | none => none
      | some (s1, m) =>
          match runUpdates s1 ds with
          | none => none
          | some (s2, out) =>
              some (s2, (match m with
                         | some msg => [(d.idx.toNat, msg)]
                         | none => []) ++ out)

/-- The sequence numbers carried by the recorded messages of the instrument at position `i`. -/
def sequenceNumbersOf (i : ℕ) (out : List (ℕ × RawMarketMessage Double)) : List ℕ :=
  (out.filter fun t => decide (t.1 = i)).map fun t => t.2.sequence_number

/-- The member `sequence_number` of the instrument at position `i` (0 past the end). -/
def sequenceNumberAt (s : MarketFeedSimulator) (i : ℕ) : ℕ :=
  ((s.instruments.get? i).map fun x => x.sequence_number).getD 0

/-- How many of the draws select the instrument at position `i`. -/
def ticksOf (i : ℕ) (ds : List Draws) : ℕ := ds.countP fun d => decide (d.idx.toNat = i)

/-- Every drawn index is a position of the instrument list. -/
def ValidDraws (s : MarketFeedSimulator) (ds : List Draws) : Prop :=
  ∀ d ∈ ds, 0 ≤ d.idx ∧ d.idx.toNat < s.instruments.length

/-! ## Wire image of `RawMarketMessage` -/

/-- Byte order of the host. -/
inductive ByteOrder where
  | little : ByteOrder
  | big : ByteOrder
  deriving DecidableEq

/-- The `w` low-order bytes of `x`, least significant first. -/
def bytesLE (w x : ℕ) : List ℕ := (List.range w).map fun i => x / 256 ^ i % 256

/-- The value of a byte string read least significant byte first. -/
def valueLE (bs : List ℕ) : ℕ := bs.foldr (fun b acc => b + 256 * acc) 0

/-- Object representation of a `w`-byte scalar holding the bit pattern `x`. -/
def objectBytes (o : ByteOrder) (w x : ℕ) : List ℕ :=
  match o with
  | .little => bytesLE w x
  | .big => (bytesLE w x).reverse

/-- The bit pattern of a scalar read from its object representation. -/
def objectValue (o : ByteOrder) (bs : List ℕ) : ℕ :=
  match o with
  | .little => valueLE bs
  | .big => valueLE bs.reverse

/-- The `size` bytes of `buf` that start at offset `off`. -/
def field (buf : List ℕ) (off size : ℕ) : List ℕ := (buf.drop off).take size

namespace RawMarketMessage

/-- The value of `sizeof(RawMarketMessage)` for the packed struct: the sum of the member sizes. -/
def sizeof : ℕ := 8 + 4 + 8 + 8 + 1 + 4

/-- The bytes `sendMessage` passes to `sendto`: the object representation of the packed
struct, its members in declaration order without padding. -/
def toBytes (o : ByteOrder) (m : RawMarketMessage ℕ) : List ℕ :=
  objectBytes o 8 m.timestamp ++ objectBytes o 4 m.instrument_id ++ objectBytes o 8 m.price ++
    objectBytes o 8 m.volume ++ objectBytes o 1 m.side ++ objectBytes o 4 m.sequence_number

/-- The parsing branch of `UDPMulticastReceiver::listen`: when at least `sizeof` bytes were
received, the buffer is read through a `RawMarketMessage*`. -/
def ofBuffer (o : ByteOrder) (buf : List ℕ) : Option (RawMarketMessage ℕ) :=
  if sizeof ≤ buf.length then
    some { timestamp := objectValue o (field buf 0 8),
           instrument_id := objectValue o (field buf 8 4),
           price := objectValue o (field buf 12 8),
           volume := objectValue o (field buf 20 8),
           side := objectValue o (field buf 28 1),
           sequence_number := objectValue o (field buf 29 4) }
  else none

/-- Every member holds a value of its declared width. -/
def WellFormed (m : RawMarketMessage ℕ) : Prop :=
  m.timestamp < 2 ^ 64 ∧ m.instrument_id < 2 ^ 32 ∧ m.price < 2 ^ 64 ∧ m.volume < 2 ^ 64 ∧
    m.side < 2 ^ 8 ∧ m.sequence_number < 2 ^ 32

end RawMarketMessage

/-! ## Engines used as concrete inputs -/

/-- A fresh engine. -/
def engine0 : MarketFeedSimulator := MarketFeedSimulator.new "224.1.1.1" 9001

/-- A fresh engine after `addInstrument(1, "TEST", 100.00, 0.02)`. -/
def engine1 : MarketFeedSimulator :=
  (engine0.addInstrument 1 "TEST" (.fin 100) (Double.ofRat (1 / 50))).1

/-- The arguments `(1, "TEST", 100.00, 0.02)`. -/
def spec0 : InstrumentSpec :=
  { id := 1, symbol := "TEST", base_price := .fin 100, volatility := Double.ofRat (1 / 50) }

/-- A message with the largest timestamp, a price pattern (that of 150.0) and side `'S'`. -/
def message0 : RawMarketMessage ℕ :=
  { timestamp := 18446744073709551615, instrument_id := 7, price := 4639481672377565184,
    volume := 258, side := 83, sequence_number := 4294967295 }

/-- A fresh engine after `addInstrument(3, "TICK", 0.03, 0.02)`. -/
def engineTick : MarketFeedSimulator :=
  (engine0.addInstrument 3 "TICK" (Double.ofRat (3 / 100)) (Double.ofRat (1 / 50))).1

/-- A fresh engine after `addInstrument(4, "SMALL", 0.001953125, 0.015625)`. -/
def engineSmall : MarketFeedSimulator :=
  (engine0.addInstrument 4 "SMALL" (.fin (1 / 512)) (.fin (1 / 64))).1

/-- A fresh engine after `addInstrument(5, "WILD", 100.0, 200.0)`. -/
def engineWild : MarketFeedSimulator :=
  (engine0.addInstrument 5 "WILD" (.fin 100) (.fin 200)).1

/-- A fresh engine after `addInstrument(6, "HUGE", 0x1p1000, 0x1p1000)`. -/
def engineHuge : MarketFeedSimulator :=
  (engine0.addInstrument 6 "HUGE" (.fin (pow2 1000)) (.fin (pow2 1000))).1

/-- A draw selecting position 0 with the factor `-0.01`. -/
def drawDown : Draws :=
  { idx := 0, random_factor := Double.ofRat (-1 / 100), volume := 100, side := 0, now_us := 0 }

/-- A draw selecting position 0 with the factor `0.01`. -/
def drawUp : Draws :=
  { idx := 0, random_factor := Double.ofRat (1 / 100), volume := 9999, side := 1, now_us := 1 }

/-- A draw selecting position 0, with factor 0, volume 100, side `'B'`, at time 0. -/
def draw0 : Draws := { idx := 0, random_factor := .fin 0, volume := 100, side := 1, now_us := 0 }

open MarketFeedSimulator

/-! ## The binary64 model -/

theorem pow2_pos (e : ℤ) : 0 < pow2 e := by
  unfold pow2
  split_ifs
  · exact_mod_cast Nat.pos_pow_of_pos _ (by norm_num)
  · apply one_div_pos.mpr
    exact_mod_cast Nat.pos_pow_of_pos _ (by norm_num)

theorem pow2_eq_zpow (e : ℤ) : pow2 e = (2 : ℚ) ^ e := by
  unfold pow2
  split_ifs with h
  · have he : (2 : ℚ) ^ e = (2 : ℚ) ^ ((e.toNat : ℕ) : ℤ) := by
      rw [Int.toNat_of_nonneg h]
    rw [he, zpow_natCast]
    simp
  · have hneg : 0 ≤ -e := by omega
    have he : (2 : ℚ) ^ e = ((2 : ℚ) ^ (((-e).toNat : ℕ) : ℤ))⁻¹ := by
      rw [Int.toNat_of_nonneg hneg, zpow_neg, inv_inv]
    rw [he, zpow_natCast]
    simp

theorem bitLenAux_zero (fuel : ℕ) : bitLenAux fuel 0 = 0 := by
  cases fuel <;> simp [bitLenAux]

theorem bitLenAux_bounds (fuel n : ℕ) (h : n ≤ fuel) :
    n < 2 ^ bitLenAux fuel n ∧ (0 < n → 2 ^ (bitLenAux fuel n - 1) ≤ n) := by
  induction fuel generalizing n with
  | zero =>
      have : n = 0 := by omega
      subst this
      simp [bitLenAux]
  | succ fuel ih =>
      by_cases hn : n = 0
      · subst hn
        simp [bitLenAux]
      · have hstep : bitLenAux (fuel + 1) n = bitLenAux fuel (n / 2) + 1 := by
          simp [bitLenAux, hn]
        obtain ⟨ih1, ih2⟩ := ih (n / 2) (by omega)
        rw [hstep]
        constructor
        · rw [pow_succ]
          omega
        · intro _
          simp only [Nat.add_sub_cancel]
          by_cases h2 : n / 2 = 0
          · rw [h2, bitLenAux_zero]
            simp
            omega
          · have hk := ih2 (by omega)
            have hk1 : 1 ≤ bitLenAux fuel (n / 2) := by
              by_contra hc
              have : bitLenAux fuel (n / 2) = 0 := by omega
              rw [this] at ih1
              simp at ih1
              exact h2 ih1
            have : 2 ^ bitLenAux fuel (n / 2) = 2 * 2 ^ (bitLenAux fuel (n / 2) - 1) := by
              rw [← pow_succ']
              congr 1
              omega
            rw [this]
            omega

theorem bitLen_bounds (n : ℕ) (hn : 0 < n) :
    1 ≤ bitLen n ∧ 2 ^ (bitLen n - 1) ≤ n ∧ n < 2 * 2 ^ (bitLen n - 1) := by
  obtain ⟨h1, h2⟩ := bitLenAux_bounds n n (le_refl n)
  have hk : 1 ≤ bitLen n := by
    by_contra hc
    have : bitLenAux n n = 0 := by unfold bitLen at hc; omega
    rw [this] at h1
    simp at h1
    omega
  refine ⟨hk, h2 hn, ?_⟩
  have : 2 * 2 ^ (bitLen n - 1) = 2 ^ bitLen n := by
    rw [← pow_succ']
    congr 1
    omega
  rw [this]
  exact h1

/-- The function `ilog2` is the binary logarithm rounded down. -/
theorem ilog2_spec (q : ℚ) (hq : q ≠ 0) :
    pow2 (ilog2 q) ≤ |q| ∧ |q| < pow2 (ilog2 q + 1) := by
  have hN : 0 < q.num.natAbs := Int.natAbs_pos.mpr (Rat.num_ne_zero.mpr hq)
  have hD : 0 < q.den := q.den_pos
  obtain ⟨a1, a2, a3⟩ := bitLen_bounds _ hN
  obtain ⟨b1, b2, b3⟩ := bitLen_bounds _ hD
  have habs : |q| = (q.num.natAbs : ℚ) / (q.den : ℚ) := by
    conv_lhs => rw [← Rat.num_div_den q]
    rw [abs_div, Nat.abs_cast]
    congr 1
    rw [Nat.cast_natAbs, Int.cast_abs]
  set A : ℚ := (2 : ℚ) ^ (bitLen q.num.natAbs - 1) with hA
  set B : ℚ := (2 : ℚ) ^ (bitLen q.den - 1) with hB
  have hApos : 0 < A := by positivity
  have hBpos : 0 < B := by positivity
  have hNA : A ≤ (q.num.natAbs : ℚ) := by
    rw [hA]; exact_mod_cast a2
  have hNA2 : (q.num.natAbs : ℚ) < 2 * A := by
    rw [hA]; exact_mod_cast a3
  have hDB : B ≤ (q.den : ℚ) := by
    rw [hB]; exact_mod_cast b2
  have hDB2 : (q.den : ℚ) < 2 * B := by
    rw [hB]; exact_mod_cast b3
  have hDpos : (0 : ℚ) < q.den := by exact_mod_cast hD
  have hea : ((bitLen q.num.natAbs : ℕ) : ℤ) = ((bitLen q.num.natAbs - 1 : ℕ) : ℤ) + 1 := by
    omega
  have heb : ((bitLen q.den : ℕ) : ℤ) = ((bitLen q.den - 1 : ℕ) : ℤ) + 1 := by
    omega
  have hpe : ∀ k : ℤ, pow2 ((bitLen q.num.natAbs : ℤ) - (bitLen q.den : ℤ) + k)
      = A / B * (2 : ℚ) ^ k := by
    intro k
    rw [pow2_eq_zpow, hea, heb]
    have : ((bitLen q.num.natAbs - 1 : ℕ) : ℤ) + 1 - (((bitLen q.den - 1 : ℕ) : ℤ) + 1) + k
        = ((bitLen q.num.natAbs - 1 : ℕ) : ℤ) - ((bitLen q.den - 1 : ℕ) : ℤ) + k := by ring
    rw [this, zpow_add₀ (by norm_num), zpow_sub₀ (by norm_num), zpow_natCast, zpow_natCast]
  have hp0 := hpe 0
  have hp1 := hpe 1
  have hpm := hpe (-1)
  simp only [add_zero, zpow_zero, mul_one] at hp0
  have hup : |q| < A / B * 2 := by
    rw [habs, div_lt_iff₀ hDpos]
    have : A / B * 2 * (q.den : ℚ) ≥ A / B * 2 * B := by
      apply mul_le_mul_of_nonneg_left hDB
      positivity
    have h2 : A / B * 2 * B = 2 * A := by field_simp; ring
    linarith
  have hlo : A / B * (2 : ℚ) ^ (-1 : ℤ) ≤ |q| := by
    rw [habs, le_div_iff₀ hDpos]
    have h1 : A / B * (2 : ℚ) ^ (-1 : ℤ) * (q.den : ℚ) ≤ A / B * (2 : ℚ) ^ (-1 : ℤ) * (2 * B) := by
      apply mul_le_mul_of_nonneg_left hDB2.le
      positivity
    have h2 : A / B * (2 : ℚ) ^ (-1 : ℤ) * (2 * B) = A := by
      rw [zpow_neg_one]
      field_simp
      left
      ring
    linarith
  unfold ilog2
  simp only
  split_ifs with hlt
  · rw [hp0] at hlt
    constructor
    · rw [show (bitLen q.num.natAbs : ℤ) - (bitLen q.den : ℤ) - 1
          = (bitLen q.num.natAbs : ℤ) - (bitLen q.den : ℤ) + (-1) by ring, hpm]
      exact hlo
    · rw [show (bitLen q.num.natAbs : ℤ) - (bitLen q.den : ℤ) - 1 + 1
          = (bitLen q.num.natAbs : ℤ) - (bitLen q.den : ℤ) by ring, hp0]
      exact hlt
  · rw [hp0] at hlt
    constructor
    · rw [hp0]
      exact not_lt.mp hlt
    · rw [hp1, zpow_one]
      exact hup

theorem roundNearestEven_error (x : ℚ) : |(roundNearestEven x : ℚ) - x| ≤ 1 / 2 := by
  have h1 : (⌊x⌋ : ℚ) ≤ x := Int.floor_le x
  have h2 : x < ⌊x⌋ + 1 := Int.lt_floor_add_one x
  unfold roundNearestEven
  simp only
  split_ifs with ha hb hc
  · rw [abs_le]; constructor <;> linarith
  · push_cast; rw [abs_le]; constructor <;> linarith
  · rw [abs_le]; constructor <;> linarith
  · push_cast; rw [abs_le]; constructor <;> linarith

/-- A finite result of `ofRat` is an integer multiple of the spacing of its binade and lies
within half that spacing of the exact value. -/
theorem ofRat_error (q r : ℚ) (h : Double.ofRat q = .fin r) :
    (∃ m : ℤ, r = m * ulp q) ∧ |r - q| ≤ ulp q / 2 := by
  have hu : 0 < ulp q := pow2_pos _
  unfold Double.ofRat at h
  simp only at h
  split_ifs at h
  have hr : r = roundNearestEven (q / ulp q) * ulp q := (Double.fin.inj h).symm
  refine ⟨⟨_, hr⟩, ?_⟩
  have he := roundNearestEven_error (q / ulp q)
  have : r - q = ((roundNearestEven (q / ulp q) : ℚ) - q / ulp q) * ulp q := by
    rw [hr]; field_simp
  rw [this, abs_mul, abs_of_pos hu]
  calc |(roundNearestEven (q / ulp q) : ℚ) - q / ulp q| * ulp q
      ≤ 1 / 2 * ulp q := mul_le_mul_of_nonneg_right he hu.le
    _ = ulp q / 2 := by ring

/-! ## Lifecycle and registration -/

/-- C5. `start()` on an engine without instruments throws `std::runtime_error` and leaves
every member as it was (so a stopped engine stays stopped and no thread is created); with at
least one instrument it does not throw that error and sets the running flag, and from the
stopped state it returns normally with the scheduler thread created. -/
theorem start_requires_an_instrument (s : MarketFeedSimulator) :
    (s.instruments = [] →
      s.start = (s, .error (.runtime_error "No instruments configured"))) ∧
    (s.instruments ≠ [] →
      s.start.1.running = true ∧
      s.start.2 ≠ .error (.runtime_error "No instruments configured") ∧
      s.start.1.instruments = s.instruments ∧
      s.start.1.messages_per_second = s.messages_per_second ∧
      s.start.1.burst_multiplier = s.burst_multiplier ∧
      s.start.1.market_open = s.market_open ∧
      (s.simulator_thread = false →
        s.start = ({ s with running := true, simulator_thread := true }, .ok ()))) := by
  constructor
  · intro h
    simp [start, h]
  · intro h
    have he : s.instruments.isEmpty = false := by
      cases hs : s.instruments with
      | nil => exact absurd hs h
      | cons a l => rfl
    cases ht : s.simulator_thread <;> simp [start, he, ht]

/-- Witness for C5: the fresh engine is refused and stays stopped; the engine with one
instrument starts. -/
theorem start_requires_an_instrument_witness :
    (engine0.start = (engine0, .error (.runtime_error "No instruments configured")) ∧
      engine0.running = false ∧ engine0.simulator_thread = false) ∧
    (engine1.start.1.running = true ∧ engine1.start.2 = .ok ()) := by
  refine ⟨⟨(start_requires_an_instrument engine0).1 rfl, rfl, rfl⟩, ?_⟩
  have h := (start_requires_an_instrument engine1).2 (by decide!)
  exact ⟨h.1, by rw [h.2.2.2.2.2.2 rfl]⟩

theorem addInstrument_instruments (s : MarketFeedSimulator) (id : ℕ) (symbol : String)
    (base_price volatility : Double) :
    (s.addInstrument id symbol base_price volatility).1.instruments =
      s.instruments ++ [{ id := id, symbol := symbol, base_price := base_price,
                          current_price := base_price, volatility := volatility,
                          volume := 0, sequence_number := 1 }] := by
  simp only [addInstrument]
  split_ifs <;> simp

/-- Counterexample for C6: a second registration under an id already in use, with a negative
base price and a zero volatility, is accepted and appends an instrument. -/
theorem addInstrument_accepts_duplicate_and_nonpositive :
    (engine1.instruments.map (fun i => i.id)).contains 1 = true ∧
    Double.le (.fin (-5)) (.fin 0) = true ∧ Double.le (.fin 0) (.fin 0) = true ∧
    (engine1.addInstrument 1 "DUP" (.fin (-5)) (.fin 0)).2 = .ok () ∧
    (engine1.addInstrument 1 "DUP" (.fin (-5)) (.fin 0)).1.instruments.length = 2 := by
  refine ⟨by decide!, by decide!, by decide!, ?_, by decide!⟩
  simp [addInstrument, engine1, engine0, new]

/-- C6, as amended. `addInstrument` never fails: whatever the id, base price and volatility
(a duplicate id and non-positive numbers included), it returns normally and appends exactly
one instrument with current price = base price, cumulative volume 0 and sequence number 1,
after the earlier instruments, which are unchanged. -/
theorem addInstrument_always_appends (s : MarketFeedSimulator) (id : ℕ) (symbol : String)
    (base_price volatility : Double) :
    (s.addInstrument id symbol base_price volatility).2 = .ok () ∧
    (s.addInstrument id symbol base_price volatility).1.instruments =
      s.instruments ++ [{ id := id, symbol := symbol, base_price := base_price,
                          current_price := base_price, volatility := volatility,
                          volume := 0, sequence_number := 1 }] := by
  simp only [addInstrument]
  split_ifs <;> simp

/-! ## Scheduler rate -/

theorem burst_multiplier_reachable (ip : String) (port : ℤ) (cs : List Control) :
    (applyControls (new ip port) cs).burst_multiplier = 1 ∨
    (applyControls (new ip port) cs).burst_multiplier = 5 ∨
    (applyControls (new ip port) cs).burst_multiplier = 10 := by
  have step : ∀ (cs : List Control) (s : MarketFeedSimulator),
      (s.burst_multiplier = 1 ∨ s.burst_multiplier = 5 ∨ s.burst_multiplier = 10) →
      ((applyControls s cs).burst_multiplier = 1 ∨ (applyControls s cs).burst_multiplier = 5 ∨
        (applyControls s cs).burst_multiplier = 10) := by
    intro cs
    induction cs with
    | nil => intro s h; exact h
    | cons c cs ih =>
        intro s h
        have hc : applyControls s (c :: cs) = applyControls (applyControl s c) cs := rfl
        rw [hc]
        apply ih
        cases c with
        | setMessageRate n => exact h
        | setBurstMode b => cases b <;> simp [applyControl, setBurstMode]
        | setMarketOpen b => exact h
  exact step cs _ (Or.inr (Or.inl rfl))

theorem tdiv_million_bounds (r : ℤ) (hr : 1 ≤ r) :
    0 ≤ Int.tdiv 1000000 r ∧ Int.tdiv 1000000 r ≤ 1000000 := by
  rw [Int.tdiv_eq_ediv (by norm_num) (by omega)]
  constructor
  · exact Int.ediv_nonneg (by norm_num) (by omega)
  · exact Int.ediv_le_self _ (by norm_num)

/-- Counterexample for C4: with the rate set to `INT_MAX`, the market open and burst mode
on, the product `messages_per_second * 10` overflows `int`; the scheduler does not compute
`10 * n`. -/
theorem effective_rate_burst_overflow :
    inIntRange 2147483647 = true ∧
    ((engine0.setMessageRate 2147483647).setBurstMode true).market_open = true ∧
    ((engine0.setMessageRate 2147483647).setBurstMode true).effective_rate = none ∧
    ((engine0.setMessageRate 2147483647).setBurstMode true).effective_rate ≠
      some (10 * 2147483647) := by
  decide

/-- C4, as amended. For every `int` rate `n` set with `setMessageRate`: while the market is
open the effective rate is `10 * n` after `setBurstMode(true)` provided `10 * n` fits a
32-bit signed `int`, and `n` after `setBurstMode(false)`; after `setMarketOpen(false)` it is
`n` whatever the burst setting. -/
theorem effective_rate_burst_and_closed (s : MarketFeedSimulator) (n : ℤ)
    (hn : inIntRange n = true) :
    (s.market_open = true → inIntRange (10 * n) = true →
      ((s.setMessageRate n).setBurstMode true).effective_rate = some (10 * n)) ∧
    (s.market_open = true →
      ((s.setMessageRate n).setBurstMode false).effective_rate = some n) ∧
    (∀ b : Bool,
      (((s.setMessageRate n).setBurstMode b).setMarketOpen false).effective_rate = some n) := by
  refine ⟨?_, ?_, ?_⟩
  · intro ho h10
    have h : inIntRange (n * 10) = true := by rw [mul_comm]; exact h10
    simp [effective_rate, setBurstMode, setMessageRate, intMul, ho, h, mul_comm]
  · intro ho
    simp [effective_rate, setBurstMode, setMessageRate, intMul, ho, hn]
  · intro b
    simp [effective_rate, setBurstMode, setMessageRate, setMarketOpen, intMul, hn]

/-- Witness for C4: rate 800 gives 8000 in burst mode, 800 without, 800 when closed. -/
theorem effective_rate_burst_and_closed_witness :
    ((engine0.setMessageRate 800).setBurstMode true).effective_rate = some 8000 ∧
    ((engine0.setMessageRate 800).setBurstMode false).effective_rate = some 800 ∧
    (((engine0.setMessageRate 800).setBurstMode true).setMarketOpen false).effective_rate =
      some 800 := by
  have h := effective_rate_burst_and_closed engine0 800 (by decide)
  exact ⟨h.1 rfl (by decide), h.2.1 rfl, h.2.2 true⟩

/-- Counterexample for C10: `setMessageRate(0)` makes the effective rate 0 and the division
undefined; `setMessageRate(-1)` gives a negative interval; `setMessageRate(INT_MAX)` makes
the product with the default multiplier 5 overflow. -/
theorem target_interval_undefined :
    (engine0.setMessageRate 0).effective_rate = some 0 ∧
    (engine0.setMessageRate 0).target_interval = none ∧
    (engine0.setMessageRate (-1)).target_interval = some (-200000) ∧
    inIntRange 2147483647 = true ∧
    (engine0.setMessageRate 2147483647).effective_rate = none := by
  decide

/-- C10, as amended. For every configuration reached from a fresh engine through the
setters, if `messages_per_second` is at least 1 and its product with the multiplier in
force (`burst_multiplier` when the market is open, 1 otherwise) is at most `INT_MAX`, then
the effective rate is that product and is at least 1, and `target_interval` is defined and
lies between 0 and 1000000 microseconds. -/
theorem target_interval_defined (ip : String) (port : ℤ) (cs : List Control)
    (hlo : 1 ≤ (applyControls (new ip port) cs).messages_per_second)
    (hhi : (applyControls (new ip port) cs).messages_per_second *
        (if (applyControls (new ip port) cs).market_open
          then (applyControls (new ip port) cs).burst_multiplier else 1) ≤ 2147483647) :
    ∃ r t : ℤ,
      (applyControls (new ip port) cs).effective_rate = some r ∧
      r = (applyControls (new ip port) cs).messages_per_second *
        (if (applyControls (new ip port) cs).market_open
          then (applyControls (new ip port) cs).burst_multiplier else 1) ∧
      1 ≤ r ∧
      (applyControls (new ip port) cs).target_interval = some t ∧
      t = Int.tdiv 1000000 r ∧ 0 ≤ t ∧ t ≤ 1000000 := by
  have hm := burst_multiplier_reachable ip port cs
  generalize applyControls (new ip port) cs = s at hlo hhi hm ⊢
  simp only [target_interval, effective_rate]
  have hmul : 1 ≤ (if s.market_open then s.burst_multiplier else 1) := by
    split_ifs
    · rcases hm with h | h | h <;> omega
    · exact le_refl 1
  generalize (if s.market_open then s.burst_multiplier else 1) = m at hhi hmul ⊢
  have hr : 1 ≤ s.messages_per_second * m := by nlinarith
  have hrange : inIntRange (s.messages_per_second * m) = true := by
    simp only [inIntRange, Bool.and_eq_true, decide_eq_true_eq]
    omega
  have hb := tdiv_million_bounds _ hr
  have hrange2 : inIntRange (Int.tdiv 1000000 (s.messages_per_second * m)) = true := by
    simp only [inIntRange, Bool.and_eq_true, decide_eq_true_eq]
    omega
  have hne : s.messages_per_second * m ≠ 0 := by omega
  refine ⟨_, _, ?_, rfl, hr, ?_, rfl, hb.1, hb.2⟩
  · simp [intMul, hrange]
  · simp [intMul, hrange, intDiv, hne, hrange2]

/-- Witness for C10: after `setMessageRate(800)` and `setBurstMode(true)` the effective rate
is 8000 and the interval is 125 microseconds. -/
theorem target_interval_defined_witness :
    (applyControls (new "224.1.1.1" 9001)
      [.setMessageRate 800, .setBurstMode true]).effective_rate = some 8000 ∧
    (applyControls (new "224.1.1.1" 9001)
      [.setMessageRate 800, .setBurstMode true]).target_interval = some 125 := by
  obtain ⟨r, t, hr, hreq, _, ht, hteq, _, _⟩ :=
    target_interval_defined "224.1.1.1" 9001 [.setMessageRate 800, .setBurstMode true]
      (by decide) (by decide)
  have h8000 : r = 8000 := by rw [hreq]; decide
  have h125 : t = 125 := by rw [hteq, h8000]; decide
  rw [hr, ht, h8000, h125]
  exact ⟨rfl, rfl⟩

/-! ## Instrument selection -/

theorem addInstruments_shape (xs : List InstrumentSpec) (s : MarketFeedSimulator) :
    (addInstruments s xs).instruments.length = s.instruments.length + xs.length ∧
    (addInstruments s xs).instrument_dist =
      (if xs = [] then s.instrument_dist
       else if s.instruments.length + xs.length > 1 then
         (0, toInt32 ((s.instruments.length + xs.length - 1) % 18446744073709551616))
       else s.instrument_dist) := by
  induction xs generalizing s with
  | nil => simp [addInstruments]
  | cons x xs ih =>
      have hlen : (s.addInstrument x.id x.symbol x.base_price x.volatility).1.instruments.length
          = s.instruments.length + 1 := by
        simp only [addInstrument]
        split_ifs <;> simp
      have hdist : (s.addInstrument x.id x.symbol x.base_price x.volatility).1.instrument_dist
          = (if s.instruments.length + 1 > 1 then
              (0, toInt32 ((s.instruments.length + 1 - 1) % 18446744073709551616))
             else s.instrument_dist) := by
        simp only [addInstrument]
        split_ifs <;> simp_all
      obtain ⟨ih1, ih2⟩ := ih (s.addInstrument x.id x.symbol x.base_price x.volatility).1
      simp only [addInstruments]
      refine ⟨by rw [ih1, hlen]; simp; omega, ?_⟩
      rw [ih2, hlen, hdist]
      by_cases hx : xs = []
      · subst hx
        simp
      · have hpos : 0 < xs.length := List.length_pos.mpr hx
        have h1 : s.instruments.length + 1 + xs.length > 1 := by omega
        have h2 : s.instruments.length + (xs.length + 1) > 1 := by omega
        have h3 : s.instruments.length + 1 + xs.length - 1 =
            s.instruments.length + (xs.length + 1) - 1 := by omega
        simp [hx, h1, h2, h3]

/-- Counterexample for C9: after `2^31 + 1` registrations the upper parameter of
`instrument_dist`, `instruments.size() - 1` converted to `int`, is `INT_MIN`: the
distribution does not range over `0 .. N-1`, and the last instrument added (at position
`2^31`) lies outside it. -/
theorem instrument_dist_wraps :
    (addInstruments engine0 (List.replicate 2147483649 spec0)).instruments.length
      = 2147483649 ∧
    (addInstruments engine0 (List.replicate 2147483649 spec0)).instrument_dist
      = (0, -2147483648) ∧
    ¬ ((2147483648 : ℤ) ≤
        (addInstruments engine0 (List.replicate 2147483649 spec0)).instrument_dist.2) := by
  have h := addInstruments_shape (List.replicate 2147483649 spec0) engine0
  have hne : List.replicate 2147483649 spec0 ≠ [] := by
    intro h0
    have := congrArg List.length h0
    rw [List.length_replicate] at this
    exact absurd this (by decide)
  have hl : engine0.instruments.length = 0 := rfl
  rw [List.length_replicate, hl] at h
  obtain ⟨h1, h2⟩ := h
  rw [if_neg hne, if_pos (by decide)] at h2
  have h3 : toInt32 ((0 + 2147483649 - 1) % 18446744073709551616) = -2147483648 := by decide
  rw [h3] at h2
  refine ⟨by rw [h1], h2, ?_⟩
  rw [h2]
  decide

/-- C9, as amended. After `N` calls of `addInstrument` on a fresh engine with
`1 ≤ N ≤ 2^31`, the list holds `N` instruments, `instrument_dist` is the distribution on
`0 .. N-1`, an integer lies in its range exactly when it is a position of the list (so the
last instrument, and the only one when `N = 1`, can be drawn), and `generateMarketUpdate`
on any index of that range accesses the list in bounds and produces a message. -/
theorem instrument_dist_covers_instruments (ip : String) (port : ℤ)
    (specs : List InstrumentSpec) (h1 : 1 ≤ specs.length) (h2 : specs.length ≤ 2147483648) :
    (addInstruments (new ip port) specs).instruments.length = specs.length ∧
    (addInstruments (new ip port) specs).instrument_dist = (0, (specs.length : ℤ) - 1) ∧
    (∀ idx : ℤ,
      ((addInstruments (new ip port) specs).instrument_dist.1 ≤ idx ∧
        idx ≤ (addInstruments (new ip port) specs).instrument_dist.2) ↔
      (0 ≤ idx ∧ idx.toNat < (addInstruments (new ip port) specs).instruments.length)) ∧
    (∀ d : Draws,
      (addInstruments (new ip port) specs).instrument_dist.1 ≤ d.idx →
      d.idx ≤ (addInstruments (new ip port) specs).instrument_dist.2 →
      ∃ s1 m, (addInstruments (new ip port) specs).generateMarketUpdate d = some (s1, some m)) := by
  obtain ⟨hlen, hdist⟩ := addInstruments_shape specs (new ip port)
  have hl : (new ip port).instruments.length = 0 := rfl
  have hd0 : (new ip port).instrument_dist = (0, 0) := rfl
  rw [hl] at hlen hdist
  rw [hd0] at hdist
  have hne : specs ≠ [] := by
    intro h0
    rw [h0] at h1
    simp at h1
  have hdist2 : (addInstruments (new ip port) specs).instrument_dist
      = (0, (specs.length : ℤ) - 1) := by
    rw [hdist, if_neg hne]
    by_cases hgt : 0 + specs.length > 1
    · rw [if_pos hgt]
      simp only [toInt32, Prod.mk.injEq, true_and]
      omega
    · rw [if_neg hgt]
      have : specs.length = 1 := by omega
      simp [this]
  generalize addInstruments (new ip port) specs = s at hlen hdist2 ⊢
  have hrange : ∀ idx : ℤ, (s.instrument_dist.1 ≤ idx ∧ idx ≤ s.instrument_dist.2) ↔
      (0 ≤ idx ∧ idx.toNat < s.instruments.length) := by
    intro idx
    rw [hdist2, hlen]
    simp only
    omega
  refine ⟨by omega, hdist2, hrange, ?_⟩
  intro d hd1 hd2
  obtain ⟨hnn, hlt⟩ := (hrange d.idx).mp ⟨hd1, hd2⟩
  have hnotempty : s.instruments.isEmpty = false := by
    cases hs : s.instruments with
    | nil => rw [hs] at hlt; simp at hlt
    | cons a l => rfl
  obtain ⟨i, hi⟩ : ∃ i, s.instruments.get? d.idx.toNat = some i :=
    ⟨_, List.get?_eq_get hlt⟩
  exact ⟨_, _, by simp only [generateMarketUpdate, hnotempty, hnn, hi]; rfl⟩

/-- Witness for C9: one registration gives the distribution on the single index 0. -/
theorem instrument_dist_covers_instruments_witness :
    (addInstruments (new "224.1.1.1" 9001) [spec0]).instruments.length = 1 ∧
    (addInstruments (new "224.1.1.1" 9001) [spec0]).instrument_dist = (0, 0) := by
  have h := instrument_dist_covers_instruments "224.1.1.1" 9001 [spec0] (by decide) (by decide)
  exact ⟨h.1, h.2.1⟩

/-! ## Sequence numbers -/

theorem generateMarketUpdate_valid (s : MarketFeedSimulator) (d : Draws)
    (h0 : 0 ≤ d.idx) (h1 : d.idx.toNat < s.instruments.length) :
    ∃ x, s.instruments.get? d.idx.toNat = some x ∧
      s.generateMarketUpdate d =
        some ({ s with instruments := s.instruments.set d.idx.toNat (updateInstrument x d).1 },
              some (updateInstrument x d).2) := by
  have hne : s.instruments.isEmpty = false := by
    cases hs : s.instruments with
    | nil => rw [hs] at h1; simp at h1
    | cons a l => rfl
  refine ⟨s.instruments.get ⟨_, h1⟩, List.get?_eq_get h1, ?_⟩
  simp only [generateMarketUpdate, hne, h0, List.get?_eq_get h1]
  rfl

theorem sequenceNumbersOf_cons (i k : ℕ) (m : RawMarketMessage Double)
    (out : List (ℕ × RawMarketMessage Double)) :
    sequenceNumbersOf i ((k, m) :: out) =
      if k = i then m.sequence_number :: sequenceNumbersOf i out else sequenceNumbersOf i out := by
  by_cases h : k = i <;> simp [sequenceNumbersOf, List.filter_cons, h]

theorem runUpdates_sequence (ds : List Draws) (s : MarketFeedSimulator)
    (hwf : ∀ x ∈ s.instruments, x.sequence_number < 4294967296)
    (hv : ValidDraws s ds) :
    ∃ s1 out, runUpdates s ds = some (s1, out) ∧
      s1.instruments.length = s.instruments.length ∧
      ∀ i, i < s.instruments.length →
        sequenceNumbersOf i out =
          (List.range (ticksOf i ds)).map
            (fun j => (sequenceNumberAt s i + j) % 4294967296) := by
  induction ds generalizing s with
  | nil =>
      exact ⟨s, [], rfl, rfl, fun i _ => by simp [sequenceNumbersOf, ticksOf]⟩
  | cons d ds ih =>
      obtain ⟨h0, h1⟩ := hv d (List.mem_cons_self _ _)
      obtain ⟨x, hx, hgen⟩ := generateMarketUpdate_valid s d h0 h1
      have hxmem : x ∈ s.instruments := List.get?_mem hx
      have hxlt : x.sequence_number < 4294967296 := hwf x hxmem
      have hwf1 : ∀ y ∈ s.instruments.set d.idx.toNat (updateInstrument x d).1,
          y.sequence_number < 4294967296 := by
        intro y hy
        rcases List.mem_or_eq_of_mem_set hy with hy | hy
        · exact hwf y hy
        · rw [hy]
          simp only [updateInstrument]
          omega
      have hv1 : ValidDraws
          { s with instruments := s.instruments.set d.idx.toNat (updateInstrument x d).1 } ds := by
        intro e he
        have := hv e (List.mem_cons_of_mem _ he)
        simpa using this
      obtain ⟨s2, out, hrun, hlen, hseq⟩ := ih _ hwf1 hv1
      refine ⟨s2, (d.idx.toNat, (updateInstrument x d).2) :: out, ?_, ?_, ?_⟩
      · simp only [runUpdates, hgen, hrun]
        rfl
      · rw [hlen]
        simp
      · intro i hi
        have hi1 : i < (s.instruments.set d.idx.toNat (updateInstrument x d).1).length := by
          simpa using hi
        rw [sequenceNumbersOf_cons, hseq i hi1]
        by_cases hk : d.idx.toNat = i
        · have hcnt : ticksOf i (d :: ds) = ticksOf i ds + 1 := by
            simp [ticksOf, List.countP_cons, hk]
          have hx1 : s.instruments[d.idx.toNat]? = some x := by simpa using hx
          have hat : sequenceNumberAt s i = x.sequence_number := by
            simp [sequenceNumberAt, ← hk, hx1]
          have hat1 : sequenceNumberAt
              { s with instruments := s.instruments.set d.idx.toNat (updateInstrument x d).1 } i
              = (x.sequence_number + 1) % 4294967296 := by
            simp [sequenceNumberAt, ← hk, List.getElem?_set_self, h1, updateInstrument]
          rw [if_pos hk, hcnt, hat, hat1, List.range_succ_eq_map, List.map_cons, List.map_map]
          have hmsg : (updateInstrument x d).2.sequence_number = x.sequence_number := rfl
          rw [hmsg]
          congr 1
          · simp
            omega
          · apply List.map_congr_left
            intro j _
            simp only [Function.comp]
            omega
        · have hcnt : ticksOf i (d :: ds) = ticksOf i ds := by
            simp [ticksOf, List.countP_cons, hk]
          have hat1 : sequenceNumberAt
              { s with instruments := s.instruments.set d.idx.toNat (updateInstrument x d).1 } i
              = sequenceNumberAt s i := by
            simp [sequenceNumberAt, List.getElem?_set_ne hk]
          rw [if_neg hk, hcnt, hat1]

theorem addInstruments_sequence_one (xs : List InstrumentSpec) (s : MarketFeedSimulator) :
    ∀ x ∈ (addInstruments s xs).instruments, x ∈ s.instruments ∨ x.sequence_number = 1 := by
  induction xs generalizing s with
  | nil => intro x hx; exact Or.inl hx
  | cons y ys ih =>
      intro x hx
      rcases ih _ x hx with h | h
      · rw [(addInstrument_instruments s y.id y.symbol y.base_price y.volatility)] at h
        rcases List.mem_append.mp h with h | h
        · exact Or.inl h
        · right
          simp only [List.mem_singleton] at h
          rw [h]
      · exact Or.inr h

theorem sequenceNumberAt_registered (ip : String) (port : ℤ) (specs : List InstrumentSpec)
    (i : ℕ) (hi : i < specs.length) :
    sequenceNumberAt (addInstruments (new ip port) specs) i = 1 := by
  have hlen := (addInstruments_shape specs (new ip port)).1
  have hl : (new ip port).instruments.length = 0 := rfl
  rw [hl, Nat.zero_add] at hlen
  have hi1 : i < (addInstruments (new ip port) specs).instruments.length := by omega
  have hmem := List.getElem_mem hi1
  rcases addInstruments_sequence_one specs (new ip port) _ hmem with h | h
  · exact absurd h (by simp [new])
  · simp [sequenceNumberAt, List.getElem?_eq_getElem hi1, h]

theorem ticksOf_replicate (n : ℕ) (d : Draws) :
    ticksOf d.idx.toNat (List.replicate n d) = n := by
  induction n with
  | zero => rfl
  | succ n ih =>
      have : ticksOf d.idx.toNat (List.replicate (n + 1) d)
          = ticksOf d.idx.toNat (List.replicate n d) + 1 := by
        simp [ticksOf, List.replicate_succ, List.countP_cons]
      rw [this, ih]

theorem get?_map_range (f : ℕ → ℕ) (n k : ℕ) (h : k < n) :
    ((List.range n).map f).get? k = some (f k) := by
  simp [List.getElem?_range, h]

/-- Counterexample for C1: with one registered instrument and `2^32 + 1` ticks, the tick
number `2^32` carries sequence number 0 instead of `2^32`, and tick `2^32 + 1` carries 1, the
number already used by the first tick. -/
theorem sequence_number_wraps :
    (runUpdates engine1 (List.replicate 4294967297 draw0)).map
        (fun r => ((sequenceNumbersOf 0 r.2).get? 0,
                   (sequenceNumbersOf 0 r.2).get? 4294967295,
                   (sequenceNumbersOf 0 r.2).get? 4294967296))
      = some (some 1, some 0, some 1) := by
  have hwf : ∀ x ∈ engine1.instruments, x.sequence_number < 4294967296 := by
    intro x hx
    have hx1 : x.sequence_number = 1 := by
      simp [engine1, engine0, addInstrument, new] at hx
      rw [hx]
    omega
  have hv : ValidDraws engine1 (List.replicate 4294967297 draw0) := by
    intro d hd
    rw [List.eq_of_mem_replicate hd]
    exact ⟨by decide, by decide⟩
  obtain ⟨s1, out, hrun, _, hseq⟩ := runUpdates_sequence _ engine1 hwf hv
  have h0 := hseq 0 (by decide)
  have ht : ticksOf 0 (List.replicate 4294967297 draw0) = 4294967297 :=
    ticksOf_replicate 4294967297 draw0
  have hs : sequenceNumberAt engine1 0 = 1 := by decide
  rw [ht, hs] at h0
  rw [hrun]
  simp only [Option.map, h0]
  rw [get?_map_range _ _ _ (by omega), get?_map_range _ _ _ (by omega),
    get?_map_range _ _ _ (by omega)]

/-- C1, as amended. For every instrument registered on a fresh engine and every run of
`generateMarketUpdate` with in-range draws, each call returns, and for every `k >= 1` the
`k`-th tick emitted for that instrument carries sequence number `k mod 2^32`: it carries `k`
for `k < 2^32` (first tick 1, each later tick one more than the previous), and the 32-bit
counter wraps to 0 at `k = 2^32`. -/
theorem sequence_numbers_per_instrument (ip : String) (port : ℤ)
    (specs : List InstrumentSpec) (ds : List Draws) (i : ℕ)
    (hv : ValidDraws (addInstruments (new ip port) specs) ds) (hi : i < specs.length) :
    ∃ s1 out, runUpdates (addInstruments (new ip port) specs) ds = some (s1, out) ∧
      (sequenceNumbersOf i out).length = ticksOf i ds ∧
      ∀ k, 1 ≤ k → k ≤ ticksOf i ds →
        (sequenceNumbersOf i out).get? (k - 1) = some (k % 4294967296) ∧
        (k < 4294967296 → (sequenceNumbersOf i out).get? (k - 1) = some k) := by
  have hlen := (addInstruments_shape specs (new ip port)).1
  have hl : (new ip port).instruments.length = 0 := rfl
  rw [hl, Nat.zero_add] at hlen
  have hwf : ∀ x ∈ (addInstruments (new ip port) specs).instruments,
      x.sequence_number < 4294967296 := by
    intro x hx
    rcases addInstruments_sequence_one specs (new ip port) x hx with h | h
    · exact absurd h (by simp [new])
    · omega
  obtain ⟨s1, out, hrun, _, hseq⟩ := runUpdates_sequence ds _ hwf hv
  have h0 := hseq i (by omega)
  rw [sequenceNumberAt_registered ip port specs i hi] at h0
  refine ⟨s1, out, hrun, by rw [h0]; simp, ?_⟩
  intro k hk1 hk2
  have hget : (sequenceNumbersOf i out).get? (k - 1) = some (k % 4294967296) := by
    rw [h0, get?_map_range _ _ _ (by omega)]
    congr 2
    omega
  refine ⟨hget, fun hlt => ?_⟩
  rw [hget, Nat.mod_eq_of_lt hlt]

/-- Witness for C1: one instrument, two ticks, carrying 1 and 2. -/
theorem sequence_numbers_per_instrument_witness :
    (runUpdates (addInstruments (new "224.1.1.1" 9001) [spec0]) [draw0, draw0]).map
        (fun r => sequenceNumbersOf 0 r.2) = some [1, 2] := by
  have hv : ValidDraws (addInstruments (new "224.1.1.1" 9001) [spec0]) [draw0, draw0] := by
    intro d hd
    simp only [List.mem_cons, List.mem_singleton, List.not_mem_nil, or_false, or_self] at hd
    rw [hd]
    exact ⟨by decide, by decide⟩
  obtain ⟨s1, out, hrun, hlen, hk⟩ :=
    sequence_numbers_per_instrument "224.1.1.1" 9001 [spec0] [draw0, draw0] 0 hv (by decide)
  have ht : ticksOf 0 [draw0, draw0] = 2 := by decide
  rw [ht] at hlen hk
  have h1 := (hk 1 (by omega) (by omega)).1
  have h2 := (hk 2 (by omega) (by omega)).1
  rw [hrun]
  simp only [Option.map, Option.some.injEq]
  match hout : sequenceNumbersOf 0 out, hlen with
  | [a, b], _ =>
      rw [hout] at h1 h2
      simp at h1 h2
      rw [h1, h2]

/-! ## Wire format -/

theorem bytesLE_succ (w x : ℕ) : bytesLE (w + 1) x = x % 256 :: bytesLE w (x / 256) := by
  simp only [bytesLE, List.range_succ_eq_map, List.map_cons, List.map_map, pow_zero,
    Nat.div_one]
  congr 1
  apply List.map_congr_left
  intro i _
  simp only [Function.comp, pow_succ, Nat.div_div_eq_div_mul]
  rw [Nat.mul_comm]

theorem valueLE_bytesLE (w x : ℕ) : valueLE (bytesLE w x) = x % 256 ^ w := by
  induction w generalizing x with
  | zero => simp [bytesLE, valueLE, Nat.mod_one]
  | succ w ih =>
      rw [bytesLE_succ]
      have : valueLE (x % 256 :: bytesLE w (x / 256))
          = x % 256 + 256 * valueLE (bytesLE w (x / 256)) := rfl
      rw [this, ih, pow_succ', Nat.mod_mul]

theorem objectBytes_length (o : ByteOrder) (w x : ℕ) : (objectBytes o w x).length = w := by
  cases o <;> simp [objectBytes, bytesLE]

theorem objectValue_objectBytes (o : ByteOrder) (w x : ℕ) (h : x < 256 ^ w) :
    objectValue o (objectBytes o w x) = x := by
  cases o <;> simp [objectValue, objectBytes, valueLE_bytesLE, Nat.mod_eq_of_lt h]

theorem objectBytes_lt (o : ByteOrder) (w x : ℕ) : ∀ b ∈ objectBytes o w x, b < 256 := by
  intro b hb
  cases o <;> simp [objectBytes, bytesLE] at hb <;> obtain ⟨i, _, rfl⟩ := hb <;>
    exact Nat.mod_lt _ (by norm_num)

theorem field_eq (pre x post : List ℕ) (off size : ℕ) (h1 : pre.length = off)
    (h2 : x.length = size) : field (pre ++ x ++ post) off size = x := by
  subst h1 h2
  simp [field, List.append_assoc]

/-- C3. For every `RawMarketMessage` whose members hold values of their declared widths and
for either host byte order, the bytes sent are exactly 33 = `sizeof(RawMarketMessage)`, each
a byte, with timestamp at offset 0 (8 bytes), instrument_id at 8 (4), price at 12 (8),
volume at 20 (8), side at 28 (1) and sequence_number at 29 (4), and reading a receive buffer
that starts with these 33 bytes through the same struct returns the message sent, every
field equal (the `double` as its 64-bit pattern). -/
theorem wire_layout_roundtrip (o : ByteOrder) (m : RawMarketMessage ℕ) (hm : m.WellFormed)
    (rest : List ℕ) :
    RawMarketMessage.sizeof = 33 ∧
    (m.toBytes o).length = 33 ∧
    (∀ b ∈ m.toBytes o, b < 256) ∧
    field (m.toBytes o) 0 8 = objectBytes o 8 m.timestamp ∧
    field (m.toBytes o) 8 4 = objectBytes o 4 m.instrument_id ∧
    field (m.toBytes o) 12 8 = objectBytes o 8 m.price ∧
    field (m.toBytes o) 20 8 = objectBytes o 8 m.volume ∧
    field (m.toBytes o) 28 1 = objectBytes o 1 m.side ∧
    field (m.toBytes o) 29 4 = objectBytes o 4 m.sequence_number ∧
    RawMarketMessage.ofBuffer o (m.toBytes o ++ rest) = some m := by
  obtain ⟨h1, h2, h3, h4, h5, h6⟩ := hm
  have hlen : (m.toBytes o).length = 33 := by
    simp [RawMarketMessage.toBytes, objectBytes_length]
  have f1 : ∀ post, field (m.toBytes o ++ post) 0 8 = objectBytes o 8 m.timestamp := by
    intro post
    have := field_eq [] (objectBytes o 8 m.timestamp)
      (objectBytes o 4 m.instrument_id ++ objectBytes o 8 m.price ++ objectBytes o 8 m.volume ++
        objectBytes o 1 m.side ++ objectBytes o 4 m.sequence_number ++ post) 0 8 rfl
      (objectBytes_length _ _ _)
    simpa [RawMarketMessage.toBytes, List.append_assoc] using this
  have f2 : ∀ post, field (m.toBytes o ++ post) 8 4 = objectBytes o 4 m.instrument_id := by
    intro post
    have := field_eq (objectBytes o 8 m.timestamp) (objectBytes o 4 m.instrument_id)
      (objectBytes o 8 m.price ++ objectBytes o 8 m.volume ++
        objectBytes o 1 m.side ++ objectBytes o 4 m.sequence_number ++ post) 8 4
      (objectBytes_length _ _ _) (objectBytes_length _ _ _)
    simpa [RawMarketMessage.toBytes, List.append_assoc] using this
  have f3 : ∀ post, field (m.toBytes o ++ post) 12 8 = objectBytes o 8 m.price := by
    intro post
    have := field_eq (objectBytes o 8 m.timestamp ++ objectBytes o 4 m.instrument_id)
      (objectBytes o 8 m.price)
      (objectBytes o 8 m.volume ++
        objectBytes o 1 m.side ++ objectBytes o 4 m.sequence_number ++ post) 12 8
      (by simp [objectBytes_length]) (objectBytes_length _ _ _)
    simpa [RawMarketMessage.toBytes, List.append_assoc] using this
  have f4 : ∀ post, field (m.toBytes o ++ post) 20 8 = objectBytes o 8 m.volume := by
    intro post
    have := field_eq (objectBytes o 8 m.timestamp ++ objectBytes o 4 m.instrument_id ++
        objectBytes o 8 m.price) (objectBytes o 8 m.volume)
      (objectBytes o 1 m.side ++ objectBytes o 4 m.sequence_number ++ post) 20 8
      (by simp [objectBytes_length]) (objectBytes_length _ _ _)
    simpa [RawMarketMessage.toBytes, List.append_assoc] using this
  have f5 : ∀ post, field (m.toBytes o ++ post) 28 1 = objectBytes o 1 m.side := by
    intro post
    have := field_eq (objectBytes o 8 m.timestamp ++ objectBytes o 4 m.instrument_id ++
        objectBytes o 8 m.price ++ objectBytes o 8 m.volume) (objectBytes o 1 m.side)
      (objectBytes o 4 m.sequence_number ++ post) 28 1
      (by simp [objectBytes_length]) (objectBytes_length _ _ _)
    simpa [RawMarketMessage.toBytes, List.append_assoc] using this
  have f6 : ∀ post, field (m.toBytes o ++ post) 29 4 = objectBytes o 4 m.sequence_number := by
    intro post
    have := field_eq (objectBytes o 8 m.timestamp ++ objectBytes o 4 m.instrument_id ++
        objectBytes o 8 m.price ++ objectBytes o 8 m.volume ++ objectBytes o 1 m.side)
      (objectBytes o 4 m.sequence_number) post 29 4
      (by simp [objectBytes_length]) (objectBytes_length _ _ _)
    simpa [RawMarketMessage.toBytes, List.append_assoc] using this
  have g1 := f1 []
  have g2 := f2 []
  have g3 := f3 []
  have g4 := f4 []
  have g5 := f5 []
  have g6 := f6 []
  rw [List.append_nil] at g1 g2 g3 g4 g5 g6
  refine ⟨rfl, hlen, ?_, g1, g2, g3, g4, g5, g6, ?_⟩
  · intro b hb
    simp only [RawMarketMessage.toBytes, List.mem_append] at hb
    rcases hb with ((((hb | hb) | hb) | hb) | hb) | hb <;> exact objectBytes_lt _ _ _ b hb
  · have hsz : RawMarketMessage.sizeof ≤ (m.toBytes o ++ rest).length := by
      rw [List.length_append, hlen]
      exact Nat.le_add_right _ _
    simp only [RawMarketMessage.ofBuffer, hsz, if_true, f1, f2, f3, f4, f5, f6]
    rw [objectValue_objectBytes o 8 _ (by norm_num; omega),
      objectValue_objectBytes o 4 _ (by norm_num; omega),
      objectValue_objectBytes o 8 _ (by norm_num; omega),
      objectValue_objectBytes o 8 _ (by norm_num; omega),
      objectValue_objectBytes o 1 _ (by norm_num; omega),
      objectValue_objectBytes o 4 _ (by norm_num; omega)]

/-- Witness for C3: a message on a little-endian host, followed by two stray bytes in the
receive buffer. -/
theorem wire_layout_roundtrip_witness :
    message0.WellFormed ∧
    (message0.toBytes .little).length = 33 ∧
    field (message0.toBytes .little) 29 4 = objectBytes .little 4 4294967295 ∧
    RawMarketMessage.ofBuffer .little (message0.toBytes .little ++ [0, 255]) = some message0 := by
  have hw : message0.WellFormed := by
    simp only [RawMarketMessage.WellFormed, message0]
    norm_num
  have h := wire_layout_roundtrip .little message0 hw [0, 255]
  exact ⟨hw, h.2.1, h.2.2.2.2.2.2.2.2.1, h.2.2.2.2.2.2.2.2.2⟩

/-! ## Price update -/

theorem roundNearestEven_nonneg (x : ℚ) (hx : 0 ≤ x) : 0 ≤ roundNearestEven x := by
  have hf : 0 ≤ ⌊x⌋ := Int.floor_nonneg.mpr hx
  unfold roundNearestEven
  simp only
  split_ifs <;> omega

theorem ofRat_not_neg (q : ℚ) (hq : 0 ≤ q) : (Double.ofRat q).lt (.fin 0) = false := by
  have hu : 0 < ulp q := pow2_pos _
  have hr : 0 ≤ (roundNearestEven (q / ulp q) : ℚ) * ulp q :=
    mul_nonneg (by exact_mod_cast roundNearestEven_nonneg _ (div_nonneg hq hu.le)) hu.le
  unfold Double.ofRat
  simp only
  split_ifs
  · simp [Double.lt, not_lt.mpr hr]
  · simp [Double.lt, hr]

theorem tick_size_eq : tick_size = .fin (5764607523034235 / 576460752303423488) := by
  decide!

theorem half_eq : Double.ofRat (1 / 2) = .fin (1 / 2) := by
  decide!

theorem not_le_zero_not_neg (p : Double) (h : p.le (.fin 0) = false) :
    p.lt (.fin 0) = false := by
  cases p with
  | nan => rfl
  | inf s => simpa [Double.le, Double.lt] using h
  | fin a =>
      simp only [Double.le, Double.lt, decide_eq_false_iff_not, not_le, not_lt] at h ⊢
      exact h.le

theorem quantize_not_neg (p : Double) (h : p.lt (.fin 0) = false) :
    (quantize p).lt (.fin 0) = false := by
  have ht : (0 : ℚ) < 5764607523034235 / 576460752303423488 := by norm_num
  have hinf : Double.lt (Double.mul (Double.round (.inf false)) tick_size) (.fin 0) = false := by
    rw [tick_size_eq]
    simp [Double.round, Double.mul, Double.lt, ht.ne', not_lt.mpr ht.le]
  unfold quantize
  cases p with
  | nan => rw [tick_size_eq]; rfl
  | inf s =>
      have hs : s = false := by simpa [Double.lt] using h
      subst hs
      have : Double.div (.inf false) tick_size = .inf false := by
        rw [tick_size_eq]
        simp [Double.div, not_lt.mpr ht.le]
      rw [this]
      exact hinf
  | fin a =>
      have ha : 0 ≤ a := by simpa [Double.lt] using h
      have hdiv : Double.div (.fin a) tick_size
          = Double.ofRat (a / (5764607523034235 / 576460752303423488)) := by
        rw [tick_size_eq]
        simp [Double.div, ht.ne']
      have hq := ofRat_not_neg (a / (5764607523034235 / 576460752303423488))
        (div_nonneg ha ht.le)
      rw [hdiv]
      cases hc : Double.ofRat (a / (5764607523034235 / 576460752303423488)) with
      | nan => rw [tick_size_eq]; rfl
      | inf s =>
          rw [hc] at hq
          have hs : s = false := by simpa [Double.lt] using hq
          subst hs
          exact hinf
      | fin r =>
          rw [hc] at hq
          have hr : 0 ≤ r := by simpa [Double.lt] using hq
          have hfl : (0 : ℤ) ≤ ⌊r + 1 / 2⌋ := Int.floor_nonneg.mpr (by linarith)
          rw [tick_size_eq]
          simp only [Double.round, hr, if_true, Double.mul]
          apply ofRat_not_neg
          exact mul_nonneg (by exact_mod_cast hfl) ht.le

theorem priceAfterReset_not_neg (x : Instrument) (f : Double)
    (hb : Double.lt (.fin 0) x.base_price = true) :
    (priceAfterReset x f).lt (.fin 0) = false := by
  unfold priceAfterReset
  simp only
  split_ifs with hle
  · rw [half_eq]
    cases hbp : x.base_price with
    | nan => rw [hbp] at hb; simp [Double.lt] at hb
    | inf s =>
        rw [hbp] at hb
        have hs : s = false := by simpa [Double.lt] using hb
        subst hs
        simp [Double.mul, Double.lt]
    | fin b =>
        rw [hbp] at hb
        have hb0 : 0 < b := by simpa [Double.lt] using hb
        simp only [Double.mul]
        exact ofRat_not_neg _ (by linarith)
  · exact not_le_zero_not_neg _ (by simpa using hle)

theorem generateMarketUpdate_selected (s : MarketFeedSimulator) (d : Draws) (x : Instrument)
    (h0 : 0 ≤ d.idx) (hx : s.instruments.get? d.idx.toNat = some x) :
    ∃ s1, s.generateMarketUpdate d = some (s1, some (updateInstrument x d).2) ∧
      s1.instruments = s.instruments.set d.idx.toNat (updateInstrument x d).1 ∧
      s1.instruments.get? d.idx.toNat = some (updateInstrument x d).1 := by
  have h1 : d.idx.toNat < s.instruments.length := by
    by_contra hcon
    rw [List.get?_eq_none.mpr (by omega)] at hx
    exact absurd hx (by simp)
  obtain ⟨y, hy, hgen⟩ := generateMarketUpdate_valid s d h0 h1
  have hxy : y = x := by
    rw [hx] at hy
    exact (Option.some.inj hy).symm
  subst hxy
  refine ⟨_, hgen, rfl, ?_⟩
  simp [List.getElem?_set_self, h1]

/-- C7. For every engine, every draw whose index selects an instrument and every random
factor (in range or not): `generateMarketUpdate` returns, the message carries the stored
price, and if `current_price + current_price * volatility * factor` is `<= 0` the price
stored is `round(base_price * 0.5 / tick_size) * tick_size`, an expression of the base price
alone; if that sum is `> 0` the reset is not applied and the price stored is
`round(sum / tick_size) * tick_size`. -/
theorem reset_to_half_base (s : MarketFeedSimulator) (d : Draws) (x : Instrument)
    (h0 : 0 ≤ d.idx) (hx : s.instruments.get? d.idx.toNat = some x) :
    ∃ s1 m x1, s.generateMarketUpdate d = some (s1, some m) ∧
      s1.instruments.get? d.idx.toNat = some x1 ∧
      m.price = x1.current_price ∧
      (Double.le (x.current_price.add ((x.current_price.mul x.volatility).mul d.random_factor))
          (.fin 0) = true →
        x1.current_price =
          (Double.round ((x.base_price.mul (Double.ofRat (1 / 2))).div tick_size)).mul
            tick_size) ∧
      (Double.lt (.fin 0)
          (x.current_price.add ((x.current_price.mul x.volatility).mul d.random_factor)) = true →
        x1.current_price =
          (Double.round ((x.current_price.add
            ((x.current_price.mul x.volatility).mul d.random_factor)).div tick_size)).mul
            tick_size) := by
  obtain ⟨s1, hgen, _, hget⟩ := generateMarketUpdate_selected s d x h0 hx
  refine ⟨s1, _, _, hgen, hget, rfl, ?_, ?_⟩
  · intro hle
    simp only [updateInstrument, quantize, priceAfterReset, generatePriceChange, hle, if_true]
  · intro hlt
    have hnle : Double.le (x.current_price.add
        ((x.current_price.mul x.volatility).mul d.random_factor)) (.fin 0) = false := by
      cases hp : x.current_price.add ((x.current_price.mul x.volatility).mul d.random_factor) with
      | nan => rfl
      | inf b =>
          rw [hp] at hlt
          simpa [Double.lt, Double.le] using hlt
      | fin a =>
          rw [hp] at hlt
          simpa [Double.lt, Double.le] using hlt
    simp [updateInstrument, quantize, priceAfterReset, generatePriceChange, hnle]

/-- Witness for C7: base price 100 with volatility 200 and factor -0.01 gives the sum -100
and the price stored and sent is 50; base price 100 with volatility 0.02 and factor 0 gives
the sum 100 and the price stored and sent is 100. -/
theorem reset_to_half_base_witness :
    Double.le ((Double.fin 100).add (((Double.fin 100).mul (.fin 200)).mul drawDown.random_factor))
      (.fin 0) = true ∧
    (engineWild.generateMarketUpdate drawDown).map (fun r => r.2.map (fun m => m.price))
      = some (some (.fin 50)) ∧
    Double.lt (.fin 0) ((Double.fin 100).add
      (((Double.fin 100).mul (Double.ofRat (1 / 50))).mul draw0.random_factor)) = true ∧
    (engine1.generateMarketUpdate draw0).map (fun r => r.2.map (fun m => m.price))
      = some (some (.fin 100)) := by
  have hle : Double.le ((Double.fin 100).add
      (((Double.fin 100).mul (.fin 200)).mul drawDown.random_factor)) (.fin 0) = true := by
    decide!
  have hlt : Double.lt (.fin 0) ((Double.fin 100).add
      (((Double.fin 100).mul (Double.ofRat (1 / 50))).mul draw0.random_factor)) = true := by
    decide!
  obtain ⟨s1, m1, x1, hgen1, _, hm1, hreset, _⟩ :=
    reset_to_half_base engineWild drawDown
      { id := 5, symbol := "WILD", base_price := .fin 100, current_price := .fin 100,
        volatility := .fin 200, volume := 0, sequence_number := 1 }
      (by decide) (by decide!)
  obtain ⟨s2, m2, x2, hgen2, _, hm2, _, hkeep⟩ :=
    reset_to_half_base engine1 draw0
      { id := 1, symbol := "TEST", base_price := .fin 100, current_price := .fin 100,
        volatility := Double.ofRat (1 / 50), volume := 0, sequence_number := 1 }
      (by decide) (by decide!)
  have hv1 : (Double.round (((Double.fin 100).mul (Double.ofRat (1 / 2))).div tick_size)).mul
      tick_size = .fin 50 := by decide!
  have hv2 : (Double.round (((Double.fin 100).add
      (((Double.fin 100).mul (Double.ofRat (1 / 50))).mul draw0.random_factor)).div
        tick_size)).mul tick_size = .fin 100 := by decide!
  refine ⟨hle, ?_, hlt, ?_⟩
  · rw [hgen1]
    simp only [Option.map, hm1, hreset hle, hv1]
  · rw [hgen2]
    simp only [Option.map, hm2, hkeep hlt, hv2]

theorem quantize_shape (p : Double) :
    quantize p = .nan ∨ (∃ b, quantize p = .inf b) ∨
      ∃ n : ℤ, quantize p = Double.ofRat (n * (5764607523034235 / 576460752303423488)) := by
  have ht : (5764607523034235 / 576460752303423488 : ℚ) ≠ 0 := by norm_num
  unfold quantize
  rw [tick_size_eq]
  cases p with
  | nan => exact Or.inl rfl
  | inf s => exact Or.inr (Or.inl ⟨_, by simp [Double.div, Double.round, Double.mul, ht]; rfl⟩)
  | fin a =>
      have hdiv : Double.div (.fin a) (.fin (5764607523034235 / 576460752303423488))
          = Double.ofRat (a / (5764607523034235 / 576460752303423488)) := by
        simp [Double.div, ht]
      rw [hdiv]
      cases Double.ofRat (a / (5764607523034235 / 576460752303423488)) with
      | nan => exact Or.inl rfl
      | inf s => exact Or.inr (Or.inl ⟨_, by simp [Double.round, Double.mul, ht]; rfl⟩)
      | fin r =>
          right; right
          by_cases hr : 0 ≤ r
          · exact ⟨⌊r + 1 / 2⌋, by simp [Double.round, hr, Double.mul]⟩
          · exact ⟨-⌊-r + 1 / 2⌋, by simp [Double.round, hr, Double.mul]⟩

/-- Counterexample for C2: an instrument registered at 0.03 and ticked with factor 0 or
with factor -0.01 stores (and sends) the double `3 * 0.01`, which is no integer multiple of the tick size, whether the
tick size is read as the double `0.01` held by `tick_size` or as the decimal 1/100. -/
theorem quantized_price_not_exact_multiple :
    tick_size = .fin (5764607523034235 / 576460752303423488) ∧
    (engineTick.generateMarketUpdate draw0).map
        (fun r => (r.1.instruments.map (fun i => i.current_price), r.2.map (fun m => m.price)))
      = some ([.fin (1080863910568919 / 36028797018963968)],
              some (.fin (1080863910568919 / 36028797018963968))) ∧
    (engineTick.generateMarketUpdate drawDown).map (fun r => r.2.map (fun m => m.price))
      = some (some (.fin (1080863910568919 / 36028797018963968))) ∧
    (∀ n : ℤ, (n : ℚ) * (5764607523034235 / 576460752303423488)
        ≠ 1080863910568919 / 36028797018963968) ∧
    (∀ n : ℤ, (n : ℚ) * (1 / 100) ≠ 1080863910568919 / 36028797018963968) := by
  refine ⟨by decide!, by decide!, by decide!, ?_, ?_⟩
  · intro n h
    have h1 : (n : ℚ) * 5764607523034235 = 17293822569102704 := by
      field_simp at h
      linarith
    have h2 : n * 5764607523034235 = 17293822569102704 := by exact_mod_cast h1
    omega
  · intro n h
    have h1 : (n : ℚ) * 9007199254740992 = 27021597764222975 := by
      field_simp at h
      linarith
    have h2 : n * 9007199254740992 = 27021597764222975 := by exact_mod_cast h1
    omega

/-- C2, as amended. For every engine, every draw whose index selects an instrument and every
random factor, the price stored and sent by `generateMarketUpdate` is
`std::round(p / tick_size) * tick_size` computed in `double` arithmetic, where `p` is the
price after the delta and the `<= 0` reset, `tick_size` is the double nearest to 0.01 and
`round` is half away from zero on the rounded quotient; unless it is NaN or an infinity, it
is the double nearest to `n * tick_size` for an integer `n`. -/
theorem price_is_quantized (s : MarketFeedSimulator) (d : Draws) (x : Instrument)
    (h0 : 0 ≤ d.idx) (hx : s.instruments.get? d.idx.toNat = some x) :
    ∃ s1 m x1, s.generateMarketUpdate d = some (s1, some m) ∧
      s1.instruments.get? d.idx.toNat = some x1 ∧
      m.price = x1.current_price ∧
      x1.current_price =
        (Double.round ((priceAfterReset x d.random_factor).div tick_size)).mul tick_size ∧
      tick_size = Double.ofRat (1 / 100) ∧
      (x1.current_price = .nan ∨ (∃ b, x1.current_price = .inf b) ∨
        ∃ n : ℤ, x1.current_price =
          Double.ofRat (n * (5764607523034235 / 576460752303423488))) := by
  obtain ⟨s1, hgen, _, hget⟩ := generateMarketUpdate_selected s d x h0 hx
  exact ⟨s1, _, _, hgen, hget, rfl, rfl, rfl, quantize_shape _⟩

/-- Witness for C2: the instrument registered at 100.00, ticked with factor 0, stores and
sends 100. -/
theorem price_is_quantized_witness :
    (Double.round ((priceAfterReset
        { id := 1, symbol := "TEST", base_price := .fin 100, current_price := .fin 100,
          volatility := Double.ofRat (1 / 50), volume := 0, sequence_number := 1 }
        draw0.random_factor).div tick_size)).mul tick_size = .fin 100 ∧
    (engine1.generateMarketUpdate draw0).map (fun r => r.2.map (fun m => m.price))
      = some (some (.fin 100)) := by
  have hv : (Double.round ((priceAfterReset
        { id := 1, symbol := "TEST", base_price := .fin 100, current_price := .fin 100,
          volatility := Double.ofRat (1 / 50), volume := 0, sequence_number := 1 }
        draw0.random_factor).div tick_size)).mul tick_size = .fin 100 := by decide!
  obtain ⟨s1, m, x1, hgen, _, hm, hp, _, _⟩ :=
    price_is_quantized engine1 draw0
      { id := 1, symbol := "TEST", base_price := .fin 100, current_price := .fin 100,
        volatility := Double.ofRat (1 / 50), volume := 0, sequence_number := 1 }
      (by decide) (by decide!)
  refine ⟨hv, ?_⟩
  rw [hgen]
  simp only [Option.map, hm, hp, hv]

theorem addInstruments_mem (xs : List InstrumentSpec) (s : MarketFeedSimulator) :
    ∀ x ∈ (addInstruments s xs).instruments, x ∈ s.instruments ∨
      ∃ sp ∈ xs, x.base_price = sp.base_price ∧ x.current_price = sp.base_price := by
  induction xs generalizing s with
  | nil => intro x hx; exact Or.inl hx
  | cons y ys ih =>
      intro x hx
      rcases ih _ x hx with h | ⟨sp, hsp, h⟩
      · rw [(addInstrument_instruments s y.id y.symbol y.base_price y.volatility)] at h
        rcases List.mem_append.mp h with h | h
        · exact Or.inl h
        · right
          simp only [List.mem_singleton] at h
          exact ⟨y, List.mem_cons_self _ _, by rw [h], by rw [h]⟩
      · exact Or.inr ⟨sp, List.mem_cons_of_mem _ hsp, h⟩

theorem pos_not_neg (b : Double) (h : Double.lt (.fin 0) b = true) :
    b.lt (.fin 0) = false := by
  cases b with
  | nan => rfl
  | inf s => simpa [Double.lt] using h
  | fin a =>
      simp only [Double.lt, decide_eq_true_eq, decide_eq_false_iff_not, not_lt] at h ⊢
      exact h.le

theorem runUpdates_not_neg (ds : List Draws) (s : MarketFeedSimulator)
    (hinv : ∀ x ∈ s.instruments,
      Double.lt (.fin 0) x.base_price = true ∧ x.current_price.lt (.fin 0) = false)
    (hv : ValidDraws s ds) :
    ∃ s1 out, runUpdates s ds = some (s1, out) ∧
      (∀ t ∈ out, t.2.price.lt (.fin 0) = false) ∧
      (∀ x ∈ s1.instruments,
        Double.lt (.fin 0) x.base_price = true ∧ x.current_price.lt (.fin 0) = false) := by
  induction ds generalizing s with
  | nil => exact ⟨s, [], rfl, by simp, hinv⟩
  | cons d ds ih =>
      obtain ⟨h0, h1⟩ := hv d (List.mem_cons_self _ _)
      obtain ⟨x, hx, hgen⟩ := generateMarketUpdate_valid s d h0 h1
      have hxmem : x ∈ s.instruments := List.get?_mem hx
      have hprice : (quantize (priceAfterReset x d.random_factor)).lt (.fin 0) = false :=
        quantize_not_neg _ (priceAfterReset_not_neg x _ (hinv x hxmem).1)
      have hinv1 : ∀ y ∈ s.instruments.set d.idx.toNat (updateInstrument x d).1,
          Double.lt (.fin 0) y.base_price = true ∧ y.current_price.lt (.fin 0) = false := by
        intro y hy
        rcases List.mem_or_eq_of_mem_set hy with hy | hy
        · exact hinv y hy
        · rw [hy]
          exact ⟨(hinv x hxmem).1, hprice⟩
      have hv1 : ValidDraws
          { s with instruments := s.instruments.set d.idx.toNat (updateInstrument x d).1 } ds := by
        intro e he
        have := hv e (List.mem_cons_of_mem _ he)
        simpa using this
      obtain ⟨s2, out, hrun, hout, hfin⟩ := ih _ hinv1 hv1
      refine ⟨s2, (d.idx.toNat, (updateInstrument x d).2) :: out, ?_, ?_, hfin⟩
      · simp only [runUpdates, hgen, hrun]
        rfl
      · intro t ht
        rcases List.mem_cons.mp ht with ht | ht
        · rw [ht]
          exact hprice
        · exact hout t ht

/-- Counterexample for C8: an instrument registered with base price 0.001953125 and
volatility 0.015625 (both doubles, both > 0) stores and sends the price 0, which is not > 0,
on its first tick, whether the factor drawn is -0.01, 0 or 0.01; an instrument registered
with base price and volatility `2^1000` and ticked with factor 0 stores and sends NaN. -/
theorem price_can_be_zero :
    Double.ofRat (1 / 512) = .fin (1 / 512) ∧ Double.ofRat (1 / 64) = .fin (1 / 64) ∧
    Double.lt (.fin 0) (.fin (1 / 512)) = true ∧ Double.lt (.fin 0) (.fin (1 / 64)) = true ∧
    Double.le (Double.ofRat (-1 / 100)) draw0.random_factor = true ∧
    Double.le draw0.random_factor (Double.ofRat (1 / 100)) = true ∧
    (engineSmall.generateMarketUpdate draw0).map
        (fun r => (r.1.instruments.map (fun i => i.current_price), r.2.map (fun m => m.price)))
      = some ([.fin 0], some (.fin 0)) ∧
    (engineSmall.generateMarketUpdate drawDown).map
        (fun r => (r.1.instruments.map (fun i => i.current_price), r.2.map (fun m => m.price)))
      = some ([.fin 0], some (.fin 0)) ∧
    (engineSmall.generateMarketUpdate drawUp).map
        (fun r => (r.1.instruments.map (fun i => i.current_price), r.2.map (fun m => m.price)))
      = some ([.fin 0], some (.fin 0)) ∧
    Double.lt (.fin 0) (.fin 0) = false ∧
    Double.ofRat (pow2 1000) = .fin (pow2 1000) ∧
    Double.lt (.fin 0) (.fin (pow2 1000)) = true ∧
    (engineHuge.generateMarketUpdate draw0).map
        (fun r => (r.1.instruments.map (fun i => i.current_price), r.2.map (fun m => m.price)))
      = some ([.nan], some .nan) ∧
    Double.lt (.fin 0) .nan = false := by
  refine ⟨by decide!, by decide!, by decide!, by decide!, by decide!, by decide!, by decide!,
    by decide!, by decide!, by decide!, by decide!, by decide!, by decide!, by decide!⟩

/-- C8, as amended. For instruments registered on a fresh engine with base price > 0
(whatever the volatility) and for every run of `generateMarketUpdate` with in-range indices
and arbitrary random factors, every call returns and the current price stored after each
update, which is the price carried by the emitted message, is never negative: it is not
`< 0` (it is `>= 0`, or NaN after an overflow of the double arithmetic). -/
theorem prices_never_negative (ip : String) (port : ℤ) (specs : List InstrumentSpec)
    (ds : List Draws)
    (hpos : ∀ sp ∈ specs, Double.lt (.fin 0) sp.base_price = true)
    (hv : ValidDraws (addInstruments (new ip port) specs) ds) :
    ∃ s1 out, runUpdates (addInstruments (new ip port) specs) ds = some (s1, out) ∧
      (∀ t ∈ out, t.2.price.lt (.fin 0) = false) ∧
      (∀ x ∈ s1.instruments, x.current_price.lt (.fin 0) = false) := by
  have hinv : ∀ x ∈ (addInstruments (new ip port) specs).instruments,
      Double.lt (.fin 0) x.base_price = true ∧ x.current_price.lt (.fin 0) = false := by
    intro x hx
    rcases addInstruments_mem specs (new ip port) x hx with h | ⟨sp, hsp, hb, hc⟩
    · exact absurd h (by simp [new])
    · rw [hb, hc]
      exact ⟨hpos sp hsp, pos_not_neg _ (hpos sp hsp)⟩
  obtain ⟨s1, out, hrun, hout, hfin⟩ := runUpdates_not_neg ds _ hinv hv
  exact ⟨s1, out, hrun, hout, fun x hx => (hfin x hx).2⟩

/-- Witness for C8: the instrument registered at 100.00, ticked twice with factor 0, sends
two messages, neither with a negative price. -/
theorem prices_never_negative_witness :
    ((runUpdates (addInstruments (new "224.1.1.1" 9001) [spec0]) [draw0, draw0]).map
        (fun r => r.2.all (fun t => !(t.2.price.lt (.fin 0))))) = some true := by
  have hv : ValidDraws (addInstruments (new "224.1.1.1" 9001) [spec0]) [draw0, draw0] := by
    intro d hd
    simp only [List.mem_cons, List.mem_singleton, List.not_mem_nil, or_false, or_self] at hd
    rw [hd]
    exact ⟨by decide, by decide⟩
  have hpos : ∀ sp ∈ [spec0], Double.lt (.fin 0) sp.base_price = true := by
    intro sp hsp
    simp only [List.mem_singleton] at hsp
    rw [hsp]
    decide!
  obtain ⟨s1, out, hrun, hout, _⟩ :=
    prices_never_negative "224.1.1.1" 9001 [spec0] [draw0, draw0] hpos hv
  rw [hrun]
  simp only [Option.map, Option.some.injEq, List.all_eq_true, Bool.not_eq_true']
  exact hout

end MarketFeed
